import Mathlib

/-!
# ComputerVision.cpp: ball tracking by contour moments

A shallow embedding of `src/ComputerVision/src/ComputerVision.cpp`.

* The vision library is external to the repository.  `findContours` is
  represented by its two outputs (`contours`, `hierarchy`), which are the inputs
  of the embedded `trackFilteredObject`; `moments` is a parameter of it.
* `double` values are exact rationals.  Every comparison of the source is then
  exact; the quotient `m10/area` is the exact quotient, and the conversion to
  `int` is truncation toward zero.
* The image `cameraFeed` is represented by the list of drawing calls made on it.
* Indexing a vector outside its bounds and a loop that never ends are faults of
  the embedding (`Fault`), so that "the function returns" is a statement.
-/

namespace ComputerVision

/-! ## Constants (lines 32-41) -/

def FRAME_WIDTH : Int := 640

def FRAME_HEIGHT : Int := 480

def MAX_NUM_OBJECTS : Int := 50

def MIN_OBJECT_AREA : Int := 40 * 40

/-- Conversion of a `double` to `int`: truncation toward zero. -/
def truncToInt (q : ℚ) : Int := if 0 ≤ q then ⌊q⌋ else ⌈q⌉

/-- The source writes `FRAME_HEIGHT*FRAME_WIDTH/1.5`: an `int` product divided by
the `double` 1.5, converted to `int` by the initialisation. -/
def MAX_OBJECT_AREA : Int := truncToInt (((FRAME_HEIGHT * FRAME_WIDTH : Int) : ℚ) / (3 / 2))

/-! ## Data -/

/-- A pixel position, `cv::Point`. -/
structure Point where
  x : Int
  y : Int
deriving DecidableEq, Repr

/-- One entry of `hierarchy`, a `cv::Vec4i`; `e0` is element `[0]`, the index of
the next contour at the same level or a negative number. -/
structure Vec4i where
  e0 : Int
  e1 : Int
  e2 : Int
  e3 : Int
deriving DecidableEq, Repr

/-- The three fields of `cv::Moments` that the program reads. -/
structure Moments where
  m00 : ℚ
  m10 : ℚ
  m01 : ℚ
deriving DecidableEq

/-- The position part of `Ball` (`Ball.h` is not among the sources; `drawBall`
reads both coordinates into `int`s). -/
structure Ball where
  x_pos : Int
  y_pos : Int
deriving DecidableEq, Repr

def Ball.set_x_pos (b : Ball) (x : Int) : Ball := { b with x_pos := x }

def Ball.set_y_pos (b : Ball) (y : Int) : Ball := { b with y_pos := y }

/-- The fields of `Robot` that `drawRobot` reads (`Robot.h` is not among the
sources). -/
structure Robot where
  x_pos : Int
  y_pos : Int
  team : Int
  angle : Int
deriving DecidableEq, Repr

/-- A drawing call on a frame.  Colour, font and thickness arguments are
constants of the source and are left out. -/
inductive Draw where
  | circle (x y : Int) (radius : Int)
  | putText (text : String) (x y : Int)
deriving DecidableEq, Repr

/-- The ways a run of the embedded code can fail to return: a vector or a
string literal read outside its bounds, a loop that never ends, a division by
zero. -/
inductive Fault where
  | outOfRange
  | nonTermination
  | divisionByZero
deriving DecidableEq, Repr

/-! ## Drawing (lines 54-120) -/

def intToString (number : Int) : String := toString number

def drawBall (soccerBall : Ball) (frame : List Draw) : List Draw :=
  let x := soccerBall.x_pos
  let y := soccerBall.y_pos
  frame ++
    [Draw.circle x y 10,
     Draw.putText ("(" ++ intToString x ++ "," ++ intToString y ++ ")") x (y + 20),
     Draw.putText "Ball" (x + 25) (y + 35)]

/-- The expression `lit + n` of the source for a string literal `lit` and an
`int` `n`: pointer arithmetic on the character array, then read as a C string.
Offsets `0 .. lit.length` stay inside the array (the last one is the
terminator, read as the empty string); any other offset is a fault. -/
def literalPlusInt (lit : String) (n : Int) : Except Fault String :=
  if 0 ≤ n ∧ n ≤ (lit.length : Int) then .ok (lit.drop n.toNat) else .error .outOfRange

def drawRobot (newRobot : Robot) (frame : List Draw) : Except Fault (List Draw) :=
  let x := newRobot.x_pos
  let y := newRobot.y_pos
  let team := newRobot.team
  let angle := newRobot.angle
  match literalPlusInt "Team " team with
  | .error f => .error f
  | .ok teamText =>
    match literalPlusInt "angle: " angle with
    | .error f => .error f
    | .ok angleText =>
      .ok (frame ++
        [Draw.circle x y 10,
         Draw.putText ("(" ++ intToString x ++ "," ++ intToString y ++ ")") x (y + 20),
         Draw.putText "Robot" (x + 20) (y + 35),
         Draw.putText teamText (x + 20) (y + 60),
         Draw.putText angleText (x + 20) (y + 75)])

/-- Draws all robot objects that are found (lines 114-120). -/
def drawAllRobots : List Robot → List Draw → Except Fault (List Draw)
  | [], frame => .ok frame
  | r :: rest, frame =>
    match drawRobot r frame with
    | .error f => .error f
    | .ok frame1 => drawAllRobots rest frame1

/-! ## trackFilteredObject (lines 141-191) -/

/-- The local variables of `trackFilteredObject`. -/
structure Locals where
  ball : Ball
  allRobots : List Robot
  refArea : ℚ
  objectFound : Bool
deriving DecidableEq

/-- Division of two `double`s; a zero divisor is reported as a fault. -/
def divide (a b : ℚ) : Except Fault ℚ :=
  if b = 0 then .error .divisionByZero else .ok (a / b)

/-- The body of the `for` loop (lines 165-179) on the moments of the current
contour. -/
def loopBody (moment : Moments) (st : Locals) : Except Fault Locals :=
  let area := moment.m00
  if area > (MIN_OBJECT_AREA : ℚ) then
    match divide moment.m10 area with
    | .error f => .error f
    | .ok x =>
      let st1 := { st with ball := st.ball.set_x_pos (truncToInt x) }
      match divide moment.m01 area with
      | .error f => .error f
      | .ok y =>
        let st2 := { st1 with ball := st1.ball.set_y_pos (truncToInt y) }
        .ok { st2 with objectFound := true }
  else
    .ok { st with objectFound := false }

/-- The loop `for (int index = 0; index >= 0; index = hierarchy[index][0])`
(line 163), started at `index` with at most `fuel` iterations.  Each iteration
reads `contours[index]`, runs the body, then reads `hierarchy[index][0]`. -/
def scanContours (moments : List Point → Moments) (contours : List (List Point))
    (hierarchy : List Vec4i) : Nat → Int → Locals → Except Fault Locals
  | 0, index, st => if index ≥ 0 then .error .nonTermination else .ok st
  | fuel + 1, index, st =>
    if index ≥ 0 then
      match contours[index.toNat]? with
      | none => .error .outOfRange
      | some contour =>
        match loopBody (moments contour) st with
        | .error f => .error f
        | .ok st1 =>
          match hierarchy[index.toNat]? with
          | none => .error .outOfRange
          | some h => scanContours moments contours hierarchy fuel h.e0 st1
    else .ok st

/-- What `trackFilteredObject` leaves behind: its locals at the end and the
frame it drew on. -/
structure Outcome where
  locals : Locals
  cameraFeed : List Draw
deriving DecidableEq

/-- The locals as declared at lines 143-158.  The position of the
default-constructed `Ball` is never read before it is set. -/
def initialLocals : Locals :=
  { ball := ⟨0, 0⟩, allRobots := [], refArea := 0, objectFound := false }

/-- Lines 141-191 of the source.  `contours` and `hierarchy` are what
`findContours` returned for the thresholded image.  The loop gets
`hierarchy.length` iterations: a chain of in-range indices that is longer than
that repeats an index and then never ends. -/
def trackFilteredObject (moments : List Point → Moments) (contours : List (List Point))
    (hierarchy : List Vec4i) (cameraFeed : List Draw) : Except Fault Outcome :=
  if hierarchy.length > 0 then
    let numObjects : Int := hierarchy.length
    if numObjects < MAX_NUM_OBJECTS then
      match scanContours moments contours hierarchy hierarchy.length 0 initialLocals with
      | .error f => .error f
      | .ok st =>
        if st.objectFound = true then .ok ⟨st, drawBall st.ball cameraFeed⟩
        else .ok ⟨st, cameraFeed⟩
    else
      .ok ⟨initialLocals,
        cameraFeed ++ [Draw.putText "TOO MUCH NOISE! ADJUST FILTER" 0 50]⟩
  else .ok ⟨initialLocals, cameraFeed⟩

/-! ## The vision library's polygon moments -/

/-- The running sums `a00`, `a10`, `a01` of Green's formula over the edges of a
closed polygon, `prev` being the point before the first of `pts`. -/
def edgeSums : Point → List Point → Int × Int × Int
  | _, [] => (0, 0, 0)
  | prev, p :: rest =>
    let dxy := prev.x * p.y - p.x * prev.y
    let r := edgeSums p rest
    (dxy + r.1, dxy * (prev.x + p.x) + r.2.1, dxy * (prev.y + p.y) + r.2.2)

/-- The moments the vision library computes for a contour given as a vector of
integer points: Green's formula over the closed polygon, the sign chosen so
that the area is not negative.  This is the instance of the `moments` parameter
for frames whose moments are those of the contour polygons. -/
def contourMoments (pts : List Point) : Moments :=
  match pts.getLast? with
  | none => ⟨0, 0, 0⟩
  | some last =>
    let a := edgeSums last pts
    if a.1 > 0 then ⟨(a.1 : ℚ) / 2, (a.2.1 : ℚ) / 6, (a.2.2 : ℚ) / 6⟩
    else if a.1 < 0 then ⟨-(a.1 : ℚ) / 2, -(a.2.1 : ℚ) / 6, -(a.2.2 : ℚ) / 6⟩
    else ⟨0, 0, 0⟩

/-! ## Vocabulary of the claims -/

/-- The position `(m10/m00, m01/m00)` truncated to integers. -/
def centroid (m : Moments) : Ball :=
  ⟨truncToInt (m.m10 / m.m00), truncToInt (m.m01 / m.m00)⟩

/-- The indices met by following element `[0]` of the hierarchy entries from
`index` until a negative index, within `fuel` steps; `none` when the chain
leaves the hierarchy or does not end. -/
def siblingChain (hierarchy : List Vec4i) : Nat → Int → Option (List Nat)
  | 0, index => if index ≥ 0 then none else some []
  | fuel + 1, index =>
    if index ≥ 0 then
      match hierarchy[index.toNat]? with
      | none => none
      | some h => (siblingChain hierarchy fuel h.e0).map (fun l => index.toNat :: l)
    else some []

/-- The contours visited by the loop of `trackFilteredObject`, in order. -/
def visited (hierarchy : List Vec4i) : Option (List Nat) :=
  siblingChain hierarchy hierarchy.length 0

/-- The moments of contour `i`. -/
def momentsAt (moments : List Point → Moments) (contours : List (List Point)) (i : Nat) :
    Moments :=
  moments (contours.getD i [])

/-- What one iteration does to the locals when nothing faults. -/
def bodyResult (m : Moments) (st : Locals) : Locals :=
  if m.m00 > (MIN_OBJECT_AREA : ℚ) then { st with ball := centroid m, objectFound := true }
  else { st with objectFound := false }

/-- A ball is drawn on `before`, giving `after`, at the position `b`. -/
def BallDrawnAt (before after : List Draw) (b : Ball) : Prop :=
  after = drawBall b before

/-- The noise warning of line 188 is drawn on `before`, giving `after`. -/
def NoiseWarned (before after : List Draw) : Prop :=
  after = before ++ [Draw.putText "TOO MUCH NOISE! ADJUST FILTER" 0 50]

/-- The locals after the loop has visited the contours `l` in order, when
nothing faults. -/
def afterVisits (moments : List Point → Moments) (contours : List (List Point))
    (l : List Nat) (st : Locals) : Locals :=
  l.foldl (fun s i => bodyResult (momentsAt moments contours i) s) st

/-- A robot is drawn on the frame `before`, giving `after`: among the drawing
calls that `after` has on top of `before` there is the text "Robot", which
every call of `drawRobot` writes (line 109) and nothing else does. -/
def RobotDrawn (before after : List Draw) : Prop :=
  ∃ added : List Draw, after = before ++ added ∧
    ∃ x y : Int, Draw.putText "Robot" x y ∈ added

/-- A position inside the frame: `0 <= x < FRAME_WIDTH`, `0 <= y < FRAME_HEIGHT`. -/
def InFrame (x y : Int) : Prop :=
  0 ≤ x ∧ x < FRAME_WIDTH ∧ 0 ≤ y ∧ y < FRAME_HEIGHT

instance (x y : Int) : Decidable (InFrame x y) := by
  unfold InFrame
  infer_instance

/-! ### The reference definition of the largest qualifying contour -/

/-- Stated from the specification's words ("the single largest contour above a
minimum-area cutoff"): the entry of largest area among those whose area exceeds
`MIN_OBJECT_AREA`, the earliest one among equals; `none` when there is none. -/
def largestQualifying : List Moments → Option Moments
  | [] => none
  | m :: rest =>
    match largestQualifying rest with
    | none => if m.m00 > (MIN_OBJECT_AREA : ℚ) then some m else none
    | some b => if m.m00 > (MIN_OBJECT_AREA : ℚ) ∧ m.m00 ≥ b.m00 then some m else some b

/-- Stated from the specification's words: the ball to report is the centroid
of the largest qualifying contour among the visited ones, or none. -/
def referenceBall (moments : List Point → Moments) (contours : List (List Point))
    (hierarchy : List Vec4i) : Option Ball :=
  match visited hierarchy with
  | none => none
  | some l => (largestQualifying (l.map (momentsAt moments contours))).map centroid

/-! ### Concrete frames -/

/-- The hierarchy of a frame with a single contour. -/
def loneEntry : List Vec4i := [⟨-1, -1, -1, -1⟩]

/-- The hierarchy of a frame with two outer contours, 0 then 1. -/
def twoEntries : List Vec4i := [⟨1, -1, -1, -1⟩, ⟨-1, 0, -1, -1⟩]

/-- A square of side 100 (area 10000) centred at (100, 100). -/
def largeSquare : List Point := [⟨50, 50⟩, ⟨50, 150⟩, ⟨150, 150⟩, ⟨150, 50⟩]

/-- A square of side 50 (area 2500) centred at (300, 200). -/
def smallSquare : List Point := [⟨275, 175⟩, ⟨275, 225⟩, ⟨325, 225⟩, ⟨325, 175⟩]

/-- A square of side 30 (area 900). -/
def thirtySquare : List Point := [⟨100, 100⟩, ⟨100, 130⟩, ⟨130, 130⟩, ⟨130, 100⟩]

/-- The outline of a blob that fills the frame up to its one-pixel border
(area 637 * 477 = 303849). -/
def wholeFrame : List Point := [⟨1, 1⟩, ⟨1, 478⟩, ⟨638, 478⟩, ⟨638, 1⟩]

/-- The outline of a U-shaped blob: a square of side 100 with a slot 40 wide and
70 deep cut into one side (area 7200). -/
def uShape : List Point :=
  [⟨170, 170⟩, ⟨130, 170⟩, ⟨130, 100⟩, ⟨100, 100⟩, ⟨100, 200⟩, ⟨200, 200⟩, ⟨200, 100⟩,
    ⟨170, 100⟩]

/-- Square number `i` of a grid of 45 by 45 squares, ten to a row, 60 apart. -/
def gridSquare (i : Nat) : List Point :=
  let x : Int := 60 * ((i % 10 : Nat) : Int)
  let y : Int := 60 * ((i / 10 : Nat) : Int)
  [⟨x, y⟩, ⟨x, y + 45⟩, ⟨x + 45, y + 45⟩, ⟨x + 45, y⟩]

/-- Fifty contours, all outer ones. -/
def fiftyContours : List (List Point) := (List.range 50).map gridSquare

/-- The hierarchy of fifty outer contours: each entry names the next one, the
last one names none. -/
def fiftyEntries : List Vec4i :=
  (List.range 50).map fun i =>
    ⟨if i + 1 < 50 then (i : Int) + 1 else -1, (i : Int) - 1, -1, -1⟩

/-! ### Outlines -/

/-- All points of a contour lie inside the frame. -/
def PointsInFrame (pts : List Point) : Prop :=
  ∀ p ∈ pts, InFrame p.x p.y

/-- Twice the signed area of the triangle `u`, `v`, `w`: its sign tells which
way the path `u`, `v`, `w` turns at `v`, and it is 0 when the path goes straight
on or turns back. -/
def triangleArea2 (u v w : Point) : Int :=
  (v.x - u.x) * (w.y - u.y) - (w.x - u.x) * (v.y - u.y)

/-- The closed polygon `pts` can be cut down to nothing by taking away, one at a
time, a point at which the polygon turns the way of the sign `s` (or does not
turn), the polygon being closed again between the two neighbours of that point.
The list is read as a cycle (`rotate`).  The triangles taken away all have the
orientation `s`, or no area. -/
inductive EarCut (s : Int) : List Point → Prop where
  | small (pts : List Point) : pts.length ≤ 2 → EarCut s pts
  | ear (l1 : List Point) (u v w : Point) (l2 : List Point) :
      0 ≤ s * triangleArea2 u v w → EarCut s (l1 ++ u :: w :: l2) →
      EarCut s (l1 ++ u :: v :: w :: l2)
  | rotate (p : Point) (rest : List Point) : EarCut s (rest ++ [p]) → EarCut s (p :: rest)

/-- The closed polygon `pts` is an outline: it can be cut into triangles that
all have the same orientation.  An outline traced around a region keeps the
region on one side and can be cut so, whatever the shape of the region; a path
that winds one way around one part and the other way around another cannot. -/
def Outline (pts : List Point) : Prop :=
  EarCut 1 pts ∨ EarCut (-1) pts

/-- The terms that the edge from `prev` to `p` adds to the sums of Green's
formula. -/
def edgeTerm (prev p : Point) : Int × Int × Int :=
  let dxy := prev.x * p.y - p.x * prev.y
  (dxy, dxy * (prev.x + p.x), dxy * (prev.y + p.y))

/-- The sums of Green's formula for the triangle `u`, `v`, `w`: twice its
signed area, and that times the sum of the three `x`, and of the three `y`. -/
def triangleTerm (u v w : Point) : Int × Int × Int :=
  (triangleArea2 u v w, triangleArea2 u v w * (u.x + v.x + w.x),
    triangleArea2 u v w * (u.y + v.y + w.y))

/-- Sums of Green's formula that, taken with the sign `s`, are those of an area
that is not negative and lies inside the frame: the first-moment sums lie
between 0 and the area sum times three times the largest coordinate. -/
def MomentBounds (s : Int) (a : Int × Int × Int) : Prop :=
  0 ≤ s * a.1 ∧ 0 ≤ s * a.2.1 ∧ s * a.2.1 ≤ 1917 * (s * a.1) ∧
    0 ≤ s * a.2.2 ∧ s * a.2.2 ≤ 1437 * (s * a.1)

/-- The last point of the path `prev, pts`. -/
def lastPoint (prev : Point) (pts : List Point) : Point :=
  pts.getLast?.getD prev

deriving instance DecidableEq for Except

/-! ## Lemmas on the loop -/

theorem divide_of_ne_zero (a b : ℚ) (h : b ≠ 0) : divide a b = .ok (a / b) := by
  simp [divide, h]

theorem ne_zero_of_gt_min (q : ℚ) (h : q > (MIN_OBJECT_AREA : ℚ)) : q ≠ 0 := by
  have h0 : (0 : ℚ) ≤ (MIN_OBJECT_AREA : ℚ) := by norm_num [MIN_OBJECT_AREA]
  intro hq
  rw [hq] at h
  exact absurd h (not_lt.mpr h0)

/-- The loop body never faults: its two divisions are guarded by
`area > MIN_OBJECT_AREA`. -/
theorem loopBody_eq (m : Moments) (st : Locals) : loopBody m st = .ok (bodyResult m st) := by
  unfold loopBody bodyResult
  by_cases h : m.m00 > (MIN_OBJECT_AREA : ℚ)
  · simp [h, divide_of_ne_zero _ _ (ne_zero_of_gt_min _ h), centroid, Ball.set_x_pos,
      Ball.set_y_pos]
  · simp [h]

theorem siblingChain_lt_length (hierarchy : List Vec4i) :
    ∀ (fuel : Nat) (index : Int) (l : List Nat),
      siblingChain hierarchy fuel index = some l → ∀ i ∈ l, i < hierarchy.length := by
  intro fuel
  induction fuel with
  | zero =>
    intro index l h i hi
    by_cases hidx : index ≥ 0
    · simp [siblingChain, hidx] at h
    · simp [siblingChain, hidx] at h
      subst h
      simp at hi
  | succ n ih =>
    intro index l h i hi
    by_cases hidx : index ≥ 0
    · simp only [siblingChain, hidx, if_true] at h
      cases hh : hierarchy[index.toNat]? with
      | none => simp [hh] at h
      | some v =>
        simp only [hh, Option.map_eq_some'] at h
        obtain ⟨t, ht, rfl⟩ := h
        rcases List.mem_cons.mp hi with rfl | hmem
        · exact (List.getElem?_eq_some_iff.mp hh).1
        · exact ih _ _ ht i hmem
    · simp [siblingChain, hidx] at h
      subst h
      simp at hi

theorem siblingChain_ne_nil (hierarchy : List Vec4i) (fuel : Nat) (index : Int) (l : List Nat)
    (hidx : index ≥ 0) (h : siblingChain hierarchy fuel index = some l) : l ≠ [] := by
  cases fuel with
  | zero => simp [siblingChain, hidx] at h
  | succ n =>
    simp only [siblingChain, hidx, if_true] at h
    cases hh : hierarchy[index.toNat]? with
    | none => simp [hh] at h
    | some v =>
      simp only [hh, Option.map_eq_some'] at h
      obtain ⟨t, _, rfl⟩ := h
      simp

/-- Along a chain that ends inside the vectors the loop returns, having run the
body once for each visited index. -/
theorem scanContours_of_chain (moments : List Point → Moments) (contours : List (List Point))
    (hierarchy : List Vec4i) :
    ∀ (fuel : Nat) (index : Int) (st : Locals) (l : List Nat),
      siblingChain hierarchy fuel index = some l → (∀ i ∈ l, i < contours.length) →
      scanContours moments contours hierarchy fuel index st
        = .ok (afterVisits moments contours l st) := by
  intro fuel
  induction fuel with
  | zero =>
    intro index st l h _
    by_cases hidx : index ≥ 0
    · simp [siblingChain, hidx] at h
    · simp [siblingChain, hidx] at h
      subst h
      simp [scanContours, hidx, afterVisits]
  | succ n ih =>
    intro index st l h hl
    by_cases hidx : index ≥ 0
    · simp only [siblingChain, hidx, if_true] at h
      cases hh : hierarchy[index.toNat]? with
      | none => simp [hh] at h
      | some v =>
        simp only [hh, Option.map_eq_some'] at h
        obtain ⟨t, ht, rfl⟩ := h
        have hlt : index.toNat < contours.length := hl _ (List.mem_cons_self _ _)
        have hc : contours[index.toNat]? = some (contours.getD index.toNat []) := by
          simp [List.getD, List.getElem?_eq_getElem hlt]
        have ht2 : ∀ i ∈ t, i < contours.length := fun i hi => hl i (List.mem_cons_of_mem _ hi)
        simp only [scanContours, hidx, if_true, hc, loopBody_eq, hh]
        rw [ih _ _ _ ht ht2]
        simp [afterVisits, momentsAt]
    · simp [siblingChain, hidx] at h
      subst h
      simp [scanContours, hidx, afterVisits]

/-- When the loop returns, the chain it followed ends inside both vectors. -/
theorem chain_of_scanContours (moments : List Point → Moments) (contours : List (List Point))
    (hierarchy : List Vec4i) :
    ∀ (fuel : Nat) (index : Int) (st st1 : Locals),
      scanContours moments contours hierarchy fuel index st = .ok st1 →
      ∃ l, siblingChain hierarchy fuel index = some l ∧ (∀ i ∈ l, i < contours.length) := by
  intro fuel
  induction fuel with
  | zero =>
    intro index st st1 h
    by_cases hidx : index ≥ 0
    · simp [scanContours, hidx] at h
    · exact ⟨[], by simp [siblingChain, hidx], by simp⟩
  | succ n ih =>
    intro index st st1 h
    by_cases hidx : index ≥ 0
    · simp only [scanContours, hidx, if_true, loopBody_eq] at h
      cases hc : contours[index.toNat]? with
      | none => simp [hc] at h
      | some c =>
        cases hh : hierarchy[index.toNat]? with
        | none => simp [hc, hh] at h
        | some v =>
          simp only [hc, hh] at h
          obtain ⟨t, ht, htl⟩ := ih _ _ _ h
          refine ⟨index.toNat :: t, by simp [siblingChain, hidx, hh, ht], ?_⟩
          intro i hi
          rcases List.mem_cons.mp hi with rfl | hmem
          · exact (List.getElem?_eq_some_iff.mp hc).1
          · exact htl i hmem
    · exact ⟨[], by simp [siblingChain, hidx], by simp⟩

/-- The loop never reports a division by zero. -/
theorem scanContours_ne_divisionByZero (moments : List Point → Moments)
    (contours : List (List Point)) (hierarchy : List Vec4i) :
    ∀ (fuel : Nat) (index : Int) (st : Locals),
      scanContours moments contours hierarchy fuel index st ≠ .error .divisionByZero := by
  intro fuel
  induction fuel with
  | zero =>
    intro index st
    by_cases hidx : index ≥ 0 <;> simp [scanContours, hidx]
  | succ n ih =>
    intro index st
    by_cases hidx : index ≥ 0
    · simp only [scanContours, hidx, if_true, loopBody_eq]
      cases hc : contours[index.toNat]? with
      | none => simp
      | some c =>
        cases hh : hierarchy[index.toNat]? with
        | none => simp
        | some v => exact ih _ _
    · simp [scanContours, hidx]

theorem afterVisits_append (moments : List Point → Moments) (contours : List (List Point))
    (l : List Nat) (i : Nat) (st : Locals) :
    afterVisits moments contours (l ++ [i]) st
      = bodyResult (momentsAt moments contours i) (afterVisits moments contours l st) := by
  simp [afterVisits, List.foldl_append]

theorem bodyResult_refArea (m : Moments) (st : Locals) :
    (bodyResult m st).refArea = st.refArea := by
  unfold bodyResult
  split <;> rfl

theorem bodyResult_allRobots (m : Moments) (st : Locals) :
    (bodyResult m st).allRobots = st.allRobots := by
  unfold bodyResult
  split <;> rfl

theorem afterVisits_refArea (moments : List Point → Moments) (contours : List (List Point))
    (l : List Nat) : ∀ st : Locals, (afterVisits moments contours l st).refArea = st.refArea := by
  induction l with
  | nil => intro st; rfl
  | cons i t ih =>
    intro st
    simp only [afterVisits, List.foldl_cons] at ih ⊢
    rw [ih, bodyResult_refArea]

theorem afterVisits_allRobots (moments : List Point → Moments) (contours : List (List Point))
    (l : List Nat) :
    ∀ st : Locals, (afterVisits moments contours l st).allRobots = st.allRobots := by
  induction l with
  | nil => intro st; rfl
  | cons i t ih =>
    intro st
    simp only [afterVisits, List.foldl_cons] at ih ⊢
    rw [ih, bodyResult_allRobots]

/-- After a non-empty run of visits the locals are those the body leaves on the
last visited contour. -/
theorem afterVisits_last (moments : List Point → Moments) (contours : List (List Point))
    (l : List Nat) (last : Nat) (st : Locals) (hlast : l.getLast? = some last) :
    (afterVisits moments contours l st).objectFound
        = decide ((momentsAt moments contours last).m00 > (MIN_OBJECT_AREA : ℚ)) ∧
      ((momentsAt moments contours last).m00 > (MIN_OBJECT_AREA : ℚ) →
        (afterVisits moments contours l st).ball
          = centroid (momentsAt moments contours last)) := by
  obtain ⟨l1, rfl⟩ : ∃ l1, l = l1 ++ [last] := by
    rcases List.eq_nil_or_concat l with h | ⟨l1, b, h⟩
    · subst h; simp at hlast
    · subst h
      simp at hlast
      subst hlast
      exact ⟨l1, by simp⟩
  rw [afterVisits_append]
  unfold bodyResult
  by_cases h : (momentsAt moments contours last).m00 > (MIN_OBJECT_AREA : ℚ)
  · simp [h]
  · simp [h]

theorem bodyResult_with_refArea (m : Moments) (st : Locals) (r : ℚ) :
    bodyResult m { st with refArea := r } = { bodyResult m st with refArea := r } := by
  unfold bodyResult
  split <;> rfl

/-- Running the loop from locals that differ only in `refArea` gives results
that differ only in `refArea`, which keeps the value it started with. -/
theorem scanContours_with_refArea (moments : List Point → Moments)
    (contours : List (List Point)) (hierarchy : List Vec4i) (r : ℚ) :
    ∀ (fuel : Nat) (index : Int) (st : Locals),
      scanContours moments contours hierarchy fuel index { st with refArea := r }
        = Except.map (fun s => { s with refArea := r })
            (scanContours moments contours hierarchy fuel index st) := by
  intro fuel
  induction fuel with
  | zero =>
    intro index st
    by_cases hidx : index ≥ 0 <;> simp [scanContours, hidx, Except.map]
  | succ n ih =>
    intro index st
    by_cases hidx : index ≥ 0
    · simp only [scanContours, hidx, if_true, loopBody_eq]
      cases hc : contours[index.toNat]? with
      | none => simp [Except.map]
      | some c =>
        cases hh : hierarchy[index.toNat]? with
        | none => simp [Except.map]
        | some v =>
          simp only [bodyResult_with_refArea]
          exact ih _ _
    · simp [scanContours, hidx, Except.map]

theorem drawBall_length (b : Ball) (frame : List Draw) :
    (drawBall b frame).length = frame.length + 3 := by
  simp [drawBall]

theorem drawBall_injective (b1 b2 : Ball) (frame : List Draw)
    (h : drawBall b1 frame = drawBall b2 frame) : b1 = b2 := by
  unfold drawBall at h
  have h1 := List.append_cancel_left h
  simp only [List.cons.injEq, Draw.circle.injEq] at h1
  cases b1
  cases b2
  simp_all

theorem frame_ne_drawBall (b : Ball) (frame : List Draw) : frame ≠ drawBall b frame := by
  intro h
  have := congrArg List.length h
  rw [drawBall_length] at this
  omega

theorem warning_ne_drawBall (b : Ball) (frame : List Draw) (d : Draw) :
    frame ++ [d] ≠ drawBall b frame := by
  intro h
  have := congrArg List.length h
  rw [drawBall_length] at this
  simp at this

theorem coordinates_ne_robot (a b : String) : "(" ++ a ++ "," ++ b ++ ")" ≠ "Robot" := by
  intro h
  have hd := congrArg String.data h
  simp only [String.data_append] at hd
  have hh := congrArg List.head? hd
  simp at hh

/-- Every call of `drawRobot` that returns leaves the text "Robot" among what
it draws, wherever in the sequence of drawing calls it is made. -/
theorem robotDrawn_of_drawRobot (before pre post drawn : List Draw) (r : Robot)
    (h : drawRobot r (before ++ pre) = .ok drawn) : RobotDrawn before (drawn ++ post) := by
  unfold drawRobot at h
  cases h1 : literalPlusInt "Team " r.team with
  | error f => simp [h1] at h
  | ok t =>
    cases h2 : literalPlusInt "angle: " r.angle with
    | error f => simp [h1, h2] at h
    | ok a =>
      simp only [h1, h2, Except.ok.injEq] at h
      subst h
      refine ⟨pre ++ [Draw.circle r.x_pos r.y_pos 10,
        Draw.putText ("(" ++ intToString r.x_pos ++ "," ++ intToString r.y_pos ++ ")")
          r.x_pos (r.y_pos + 20),
        Draw.putText "Robot" (r.x_pos + 20) (r.y_pos + 35),
        Draw.putText t (r.x_pos + 20) (r.y_pos + 60),
        Draw.putText a (r.x_pos + 20) (r.y_pos + 75)] ++ post, ?_, r.x_pos + 20,
        r.y_pos + 35, ?_⟩
      · simp [List.append_assoc]
      · simp

/-- With between 1 and 49 hierarchy entries and a sibling chain `l` that ends
inside both vectors, `trackFilteredObject` returns: the locals are those after
visiting `l`, and the ball is drawn exactly when `objectFound` is set. -/
theorem trackFilteredObject_of_visited (moments : List Point → Moments)
    (contours : List (List Point)) (hierarchy : List Vec4i) (cameraFeed : List Draw)
    (l : List Nat) (hpos : 0 < hierarchy.length) (hlt : hierarchy.length < 50)
    (hchain : visited hierarchy = some l) (hl : ∀ i ∈ l, i < contours.length) :
    trackFilteredObject moments contours hierarchy cameraFeed
      = .ok ⟨afterVisits moments contours l initialLocals,
          if (afterVisits moments contours l initialLocals).objectFound = true then
            drawBall (afterVisits moments contours l initialLocals).ball cameraFeed
          else cameraFeed⟩ := by
  have hlt2 : (hierarchy.length : Int) < MAX_NUM_OBJECTS := by
    unfold MAX_NUM_OBJECTS
    omega
  unfold trackFilteredObject
  simp only [gt_iff_lt, hpos, if_true, hlt2]
  rw [scanContours_of_chain moments contours hierarchy _ _ _ l hchain hl]
  by_cases hf : (afterVisits moments contours l initialLocals).objectFound = true
  · simp [hf]
  · simp [hf]

/-- When `trackFilteredObject` returns after scanning, the sibling chain from
index 0 ends inside both vectors. -/
theorem visited_of_trackFilteredObject (moments : List Point → Moments)
    (contours : List (List Point)) (hierarchy : List Vec4i) (cameraFeed : List Draw)
    (out : Outcome) (hpos : 0 < hierarchy.length) (hlt : hierarchy.length < 50)
    (h : trackFilteredObject moments contours hierarchy cameraFeed = .ok out) :
    ∃ l, visited hierarchy = some l ∧ (∀ i ∈ l, i < contours.length) := by
  have hlt2 : (hierarchy.length : Int) < MAX_NUM_OBJECTS := by
    unfold MAX_NUM_OBJECTS
    omega
  unfold trackFilteredObject at h
  simp only [gt_iff_lt, hpos, if_true, hlt2] at h
  cases hs : scanContours moments contours hierarchy hierarchy.length 0 initialLocals with
  | error f => simp [hs] at h
  | ok st => exact chain_of_scanContours moments contours hierarchy _ _ _ _ hs

/-- Whatever `trackFilteredObject` returns, its robot list is empty and the
frame is untouched, carries one more text, or carries one more ball. -/
theorem trackFilteredObject_effect (moments : List Point → Moments)
    (contours : List (List Point)) (hierarchy : List Vec4i) (cameraFeed : List Draw)
    (out : Outcome) (h : trackFilteredObject moments contours hierarchy cameraFeed = .ok out) :
    out.locals.allRobots = [] ∧
    (out.cameraFeed = cameraFeed ∨ NoiseWarned cameraFeed out.cameraFeed ∨
      ∃ b, BallDrawnAt cameraFeed out.cameraFeed b) := by
  by_cases hpos : hierarchy.length > 0
  · by_cases hlt : (hierarchy.length : Int) < MAX_NUM_OBJECTS
    · have hlt2 : hierarchy.length < 50 := by
        unfold MAX_NUM_OBJECTS at hlt
        omega
      obtain ⟨l, hchain, hl⟩ :=
        visited_of_trackFilteredObject moments contours hierarchy cameraFeed out hpos hlt2 h
      rw [trackFilteredObject_of_visited moments contours hierarchy cameraFeed l hpos hlt2
        hchain hl] at h
      simp only [Except.ok.injEq] at h
      subst h
      refine ⟨?_, ?_⟩
      · show (afterVisits moments contours l initialLocals).allRobots = []
        rw [afterVisits_allRobots]
        rfl
      · by_cases hf : (afterVisits moments contours l initialLocals).objectFound = true
        · right; right
          exact ⟨(afterVisits moments contours l initialLocals).ball, by simp [BallDrawnAt, hf]⟩
        · left
          simp [hf]
    · unfold trackFilteredObject at h
      simp only [hpos, if_true, hlt, if_false, Except.ok.injEq] at h
      subst h
      exact ⟨rfl, Or.inr (Or.inl rfl)⟩
  · unfold trackFilteredObject at h
    simp only [hpos, if_false, Except.ok.injEq] at h
    subst h
    exact ⟨rfl, Or.inl rfl⟩

/-- None of the three effects of `trackFilteredObject` puts the text "Robot" on
the frame. -/
theorem not_robotDrawn_of_effect (before after : List Draw)
    (h : after = before ∨ NoiseWarned before after ∨ ∃ b, BallDrawnAt before after b) :
    ¬ RobotDrawn before after := by
  rintro ⟨added, hadd, x, y, hmem⟩
  rcases h with h | h | ⟨b, h⟩
  · rw [h] at hadd
    have : added = [] := by
      have h2 : before ++ [] = before ++ added := by simpa using hadd
      exact (List.append_cancel_left h2).symm
    subst this
    simp at hmem
  · unfold NoiseWarned at h
    rw [h] at hadd
    have := (List.append_cancel_left hadd).symm
    subst this
    simp only [List.mem_singleton, Draw.putText.injEq] at hmem
    exact absurd hmem.1 (by decide)
  · unfold BallDrawnAt drawBall at h
    rw [h] at hadd
    have := (List.append_cancel_left hadd).symm
    subst this
    simp only [List.mem_cons, List.mem_singleton, Draw.putText.injEq, List.not_mem_nil,
      or_false, false_or, reduceCtorEq] at hmem
    rcases hmem with ⟨h1, _, _⟩ | ⟨h1, _, _⟩
    · exact coordinates_ne_robot _ _ h1.symm
    · exact absurd h1 (by decide)

/-! ## Lemmas on the sibling chain and on returning -/

theorem siblingChain_of_neg (hierarchy : List Vec4i) (fuel : Nat) (index : Int)
    (hidx : index < 0) : siblingChain hierarchy fuel index = some [] := by
  have hn : ¬ index ≥ 0 := not_le.mpr hidx
  cases fuel <;> simp [siblingChain, hn]

/-- More fuel does not change a chain that was followed to its end. -/
theorem siblingChain_mono (hierarchy : List Vec4i) :
    ∀ (fuel : Nat) (index : Int) (l : List Nat),
      siblingChain hierarchy fuel index = some l →
      ∀ k, siblingChain hierarchy (fuel + k) index = some l := by
  intro fuel
  induction fuel with
  | zero =>
    intro index l h k
    by_cases hidx : index ≥ 0
    · simp [siblingChain, hidx] at h
    · simp [siblingChain, hidx] at h
      subst h
      exact siblingChain_of_neg hierarchy _ index (not_le.mp hidx)
  | succ n ih =>
    intro index l h k
    by_cases hidx : index ≥ 0
    · simp only [siblingChain, hidx, if_true] at h
      cases hh : hierarchy[index.toNat]? with
      | none => simp [hh] at h
      | some v =>
        simp only [hh, Option.map_eq_some'] at h
        obtain ⟨t, ht, rfl⟩ := h
        have hk : n + 1 + k = (n + k) + 1 := by omega
        rw [hk]
        simp [siblingChain, hidx, hh, ih _ _ ht k]
    · simp [siblingChain, hidx] at h
      subst h
      exact siblingChain_of_neg hierarchy _ index (not_le.mp hidx)

/-- More iterations do not change a result of the loop. -/
theorem scanContours_mono (moments : List Point → Moments) (contours : List (List Point))
    (hierarchy : List Vec4i) (fuel : Nat) (index : Int) (st st1 : Locals)
    (h : scanContours moments contours hierarchy fuel index st = .ok st1) (k : Nat) :
    scanContours moments contours hierarchy (fuel + k) index st = .ok st1 := by
  obtain ⟨l, hchain, hl⟩ := chain_of_scanContours moments contours hierarchy _ _ _ _ h
  rw [scanContours_of_chain moments contours hierarchy _ _ _ l hchain hl] at h
  rw [scanContours_of_chain moments contours hierarchy _ _ _ l
    (siblingChain_mono hierarchy _ _ _ hchain k) hl]
  exact h

/-- In a hierarchy whose entries name as next contour either none (a negative
number) or a later one inside the hierarchy, every chain ends. -/
theorem siblingChain_of_increasing (hierarchy : List Vec4i)
    (hwf : ∀ (i : Nat) (h : Vec4i), hierarchy[i]? = some h →
      h.e0 < 0 ∨ ((i : Int) < h.e0 ∧ h.e0 < (hierarchy.length : Int))) :
    ∀ (fuel : Nat) (index : Int), index < (hierarchy.length : Int) →
      (hierarchy.length : Int) - index ≤ fuel →
      ∃ l, siblingChain hierarchy fuel index = some l := by
  intro fuel
  induction fuel with
  | zero =>
    intro index h1 h2
    exact ⟨[], siblingChain_of_neg hierarchy _ index (by push_cast at h2; omega)⟩
  | succ n ih =>
    intro index h1 h2
    by_cases hidx : index ≥ 0
    · have hlt : index.toNat < hierarchy.length := by omega
      have hh : hierarchy[index.toNat]? = some hierarchy[index.toNat] :=
        List.getElem?_eq_getElem hlt
      have hcast : ((index.toNat : Nat) : Int) = index := Int.toNat_of_nonneg hidx
      rcases hwf _ _ hh with hneg | ⟨hgt, hin⟩
      · refine ⟨[index.toNat], ?_⟩
        simp [siblingChain, hidx, hh, siblingChain_of_neg hierarchy n _ hneg]
      · rw [hcast] at hgt
        obtain ⟨t, ht⟩ := ih hierarchy[index.toNat].e0 hin (by push_cast at h2 ⊢; omega)
        exact ⟨index.toNat :: t, by simp [siblingChain, hidx, hh, ht]⟩
    · exact ⟨[], siblingChain_of_neg hierarchy _ index (not_le.mp hidx)⟩

/-- For a hierarchy as `findContours` builds it (as many entries as contours,
each naming as next contour none or a later one), `trackFilteredObject`
returns. -/
theorem trackFilteredObject_returns (moments : List Point → Moments)
    (contours : List (List Point)) (hierarchy : List Vec4i) (cameraFeed : List Draw)
    (hlen : contours.length = hierarchy.length)
    (hwf : ∀ (i : Nat) (h : Vec4i), hierarchy[i]? = some h →
      h.e0 < 0 ∨ ((i : Int) < h.e0 ∧ h.e0 < (hierarchy.length : Int))) :
    ∃ out, trackFilteredObject moments contours hierarchy cameraFeed = .ok out := by
  by_cases hpos : hierarchy.length > 0
  · by_cases hlt : (hierarchy.length : Int) < MAX_NUM_OBJECTS
    · have hlt2 : hierarchy.length < 50 := by
        unfold MAX_NUM_OBJECTS at hlt
        omega
      obtain ⟨l, hchain⟩ := siblingChain_of_increasing hierarchy hwf hierarchy.length 0
        (by omega) (by omega)
      have hl : ∀ i ∈ l, i < contours.length := by
        intro i hi
        rw [hlen]
        exact siblingChain_lt_length hierarchy _ _ _ hchain i hi
      exact ⟨_, trackFilteredObject_of_visited moments contours hierarchy cameraFeed l hpos
        hlt2 hchain hl⟩
    · unfold trackFilteredObject
      simp only [hpos, if_true, hlt, if_false]
      exact ⟨_, rfl⟩
  · unfold trackFilteredObject
    simp only [hpos, if_false]
    exact ⟨_, rfl⟩

/-- With between 1 and 49 hierarchy entries and a chain `l` that ends at `last`
inside both vectors, `trackFilteredObject` returns and the frame it leaves is
determined by the moments of contour `last`. -/
theorem trackFilteredObject_of_last (moments : List Point → Moments)
    (contours : List (List Point)) (hierarchy : List Vec4i) (cameraFeed : List Draw)
    (l : List Nat) (last : Nat) (hpos : 0 < hierarchy.length) (hlt : hierarchy.length < 50)
    (hchain : visited hierarchy = some l) (hl : ∀ i ∈ l, i < contours.length)
    (hlast : l.getLast? = some last) :
    trackFilteredObject moments contours hierarchy cameraFeed
      = .ok ⟨afterVisits moments contours l initialLocals,
          if (momentsAt moments contours last).m00 > 1600 then
            drawBall (centroid (momentsAt moments contours last)) cameraFeed
          else cameraFeed⟩ := by
  rw [trackFilteredObject_of_visited moments contours hierarchy cameraFeed l hpos hlt
    hchain hl]
  have hmin : (MIN_OBJECT_AREA : ℚ) = 1600 := by norm_num [MIN_OBJECT_AREA]
  obtain ⟨hfound, hball⟩ := afterVisits_last moments contours l last initialLocals hlast
  rw [hmin] at hfound hball
  by_cases ha : (momentsAt moments contours last).m00 > 1600
  · simp [hfound, ha, hball ha]
  · simp [hfound, ha]

/-! ## Lemmas on polygon moments -/

theorem lastPoint_cons (prev p : Point) (rest : List Point) :
    lastPoint prev (p :: rest) = lastPoint p rest := by
  cases rest with
  | nil => simp [lastPoint]
  | cons q t =>
    have h : (q :: t).getLast? = some ((q :: t).getLast (List.cons_ne_nil q t)) :=
      List.getLast?_eq_getLast _ _
    simp only [lastPoint, List.getLast?_cons_cons, h, Option.getD_some]

theorem lastPoint_append (l1 l2 : List Point) :
    ∀ prev : Point, lastPoint prev (l1 ++ l2) = lastPoint (lastPoint prev l1) l2 := by
  induction l1 with
  | nil => intro prev; simp [lastPoint]
  | cons p t ih =>
    intro prev
    rw [List.cons_append, lastPoint_cons, lastPoint_cons, ih]

theorem edgeSums_nil (prev : Point) : edgeSums prev [] = 0 := rfl

theorem edgeSums_cons (prev p : Point) (rest : List Point) :
    edgeSums prev (p :: rest) = edgeTerm prev p + edgeSums p rest := by
  simp [edgeSums, edgeTerm, Prod.ext_iff]

theorem edgeSums_append (l1 l2 : List Point) :
    ∀ prev : Point,
      edgeSums prev (l1 ++ l2) = edgeSums prev l1 + edgeSums (lastPoint prev l1) l2 := by
  induction l1 with
  | nil => intro prev; simp [edgeSums_nil, lastPoint]
  | cons p t ih =>
    intro prev
    rw [List.cons_append, edgeSums_cons, edgeSums_cons, ih, lastPoint_cons, add_assoc]

theorem edgeTerm_self (p : Point) : edgeTerm p p = 0 := by
  simp [edgeTerm, Prod.ext_iff, mul_comm]

theorem edgeTerm_swap (p q : Point) : edgeTerm q p + edgeTerm p q = 0 := by
  simp only [edgeTerm, Prod.ext_iff, Prod.fst_add, Prod.snd_add, Prod.fst_zero, Prod.snd_zero]
  refine ⟨by ring, by ring, by ring⟩

/-- Going from `u` to `w` by way of `v` adds the sums of the triangle `u`, `v`,
`w` to those of the edge from `u` to `w`. -/
theorem edgeTerm_triangle (u v w : Point) :
    edgeTerm u v + edgeTerm v w = edgeTerm u w + triangleTerm u v w := by
  simp only [edgeTerm, triangleTerm, triangleArea2, Prod.ext_iff, Prod.fst_add, Prod.snd_add]
  refine ⟨by ring, by ring, by ring⟩

/-- Taking the point `v` out of a closed polygon takes the sums of the triangle
formed by `v` and its two neighbours out of the sums of Green's formula. -/
theorem edgeSums_ear (d : Point) (l1 : List Point) (u v w : Point) (l2 : List Point) :
    edgeSums (lastPoint d (l1 ++ u :: v :: w :: l2)) (l1 ++ u :: v :: w :: l2)
      = edgeSums (lastPoint d (l1 ++ u :: w :: l2)) (l1 ++ u :: w :: l2)
        + triangleTerm u v w := by
  have hlast : lastPoint d (l1 ++ u :: v :: w :: l2) = lastPoint d (l1 ++ u :: w :: l2) := by
    simp only [lastPoint_append, lastPoint_cons]
  rw [hlast]
  generalize lastPoint d (l1 ++ u :: w :: l2) = z
  simp only [edgeSums_append, edgeSums_cons]
  have h := edgeTerm_triangle u v w
  calc edgeSums z l1 + (edgeTerm (lastPoint z l1) u
          + (edgeTerm u v + (edgeTerm v w + edgeSums w l2)))
      = edgeSums z l1 + (edgeTerm (lastPoint z l1) u
          + ((edgeTerm u v + edgeTerm v w) + edgeSums w l2)) := by rw [add_assoc]
    _ = edgeSums z l1 + (edgeTerm (lastPoint z l1) u
          + ((edgeTerm u w + triangleTerm u v w) + edgeSums w l2)) := by rw [h]
    _ = edgeSums z l1 + (edgeTerm (lastPoint z l1) u + (edgeTerm u w + edgeSums w l2))
          + triangleTerm u v w := by abel

/-- The sums of Green's formula of a closed polygon do not depend on the point
the list starts with. -/
theorem edgeSums_rotate (d : Point) (p : Point) (rest : List Point) :
    edgeSums (lastPoint d (p :: rest)) (p :: rest)
      = edgeSums (lastPoint d (rest ++ [p])) (rest ++ [p]) := by
  have h1 : lastPoint d (rest ++ [p]) = p := by
    rw [lastPoint_append, lastPoint_cons]
    rfl
  rw [h1, lastPoint_cons, edgeSums_cons, edgeSums_append, edgeSums_cons, edgeSums_nil,
    add_zero, add_comm]

theorem edgeSums_small (d : Point) (pts : List Point) (h : pts.length ≤ 2) :
    edgeSums (lastPoint d pts) pts = 0 := by
  match pts, h with
  | [], _ => rfl
  | [p], _ =>
    rw [lastPoint_cons, edgeSums_cons, edgeSums_nil, add_zero]
    exact edgeTerm_self p
  | [p, q], _ =>
    rw [lastPoint_cons, lastPoint_cons, edgeSums_cons, edgeSums_cons, edgeSums_nil, add_zero]
    exact edgeTerm_swap p q
  | _ :: _ :: _ :: _, h => simp at h

theorem momentBounds_zero (s : Int) : MomentBounds s 0 := by
  simp [MomentBounds]

theorem momentBounds_add (s : Int) (a b : Int × Int × Int) (ha : MomentBounds s a)
    (hb : MomentBounds s b) : MomentBounds s (a + b) := by
  obtain ⟨a1, a2, a3, a4, a5⟩ := ha
  obtain ⟨b1, b2, b3, b4, b5⟩ := hb
  simp only [MomentBounds, Prod.fst_add, Prod.snd_add, mul_add]
  refine ⟨by linarith, by linarith, by linarith, by linarith, by linarith⟩

/-- A triangle of the orientation `s` with its corners in the frame. -/
theorem momentBounds_triangle (s : Int) (u v w : Point) (ht : 0 ≤ s * triangleArea2 u v w)
    (hu : InFrame u.x u.y) (hv : InFrame v.x v.y) (hw : InFrame w.x w.y) :
    MomentBounds s (triangleTerm u v w) := by
  obtain ⟨u1, u2, u3, u4⟩ := hu
  obtain ⟨v1, v2, v3, v4⟩ := hv
  obtain ⟨w1, w2, w3, w4⟩ := hw
  unfold FRAME_WIDTH at u2 v2 w2
  unfold FRAME_HEIGHT at u4 v4 w4
  have hx0 : 0 ≤ u.x + v.x + w.x := by omega
  have hx1 : 0 ≤ 1917 - (u.x + v.x + w.x) := by omega
  have hy0 : 0 ≤ u.y + v.y + w.y := by omega
  have hy1 : 0 ≤ 1437 - (u.y + v.y + w.y) := by omega
  have m1 := mul_nonneg ht hx0
  have m2 := mul_nonneg ht hx1
  have m3 := mul_nonneg ht hy0
  have m4 := mul_nonneg ht hy1
  simp only [MomentBounds, triangleTerm]
  refine ⟨ht, by linarith, by linarith, by linarith, by linarith⟩

/-- The sums of Green's formula of an outline inside the frame, taken with the
orientation of its triangles, are those of an area inside the frame. -/
theorem earCut_momentBounds (s : Int) (pts : List Point) (hcut : EarCut s pts) :
    PointsInFrame pts → ∀ d : Point, MomentBounds s (edgeSums (lastPoint d pts) pts) := by
  induction hcut with
  | small pts hlen =>
    intro _ d
    rw [edgeSums_small d pts hlen]
    exact momentBounds_zero s
  | ear l1 u v w l2 ht _ ih =>
    intro hin d
    rw [edgeSums_ear]
    have hsub : PointsInFrame (l1 ++ u :: w :: l2) := by
      intro p hp
      apply hin
      simp only [List.mem_append, List.mem_cons] at hp ⊢
      tauto
    refine momentBounds_add s _ _ (ih hsub d) (momentBounds_triangle s u v w ht ?_ ?_ ?_)
    · exact hin u (by simp)
    · exact hin v (by simp)
    · exact hin w (by simp)
  | rotate p rest _ ih =>
    intro hin d
    rw [edgeSums_rotate]
    have hsub : PointsInFrame (rest ++ [p]) := by
      intro q hq
      apply hin
      simp only [List.mem_append, List.mem_singleton, List.mem_cons] at hq ⊢
      tauto
    exact ih hsub d

/-- The moments of an outline inside the frame: the area is not negative and
each first moment lies between 0 and the area times the largest coordinate of
the frame. -/
theorem contourMoments_bounds (pts : List Point) (hin : PointsInFrame pts)
    (hout : Outline pts) :
    0 ≤ (contourMoments pts).m00 ∧
    0 ≤ (contourMoments pts).m10 ∧
    (contourMoments pts).m10 ≤ 639 * (contourMoments pts).m00 ∧
    0 ≤ (contourMoments pts).m01 ∧
    (contourMoments pts).m01 ≤ 479 * (contourMoments pts).m00 := by
  unfold contourMoments
  cases hlast : pts.getLast? with
  | none => simp
  | some last =>
    have hl : lastPoint last pts = last := by simp [lastPoint, hlast]
    dsimp only
    by_cases hpos : (edgeSums last pts).1 > 0
    · have hposq : (0 : ℚ) < ((edgeSums last pts).1 : ℚ) := by exact_mod_cast hpos
      simp only [hpos, if_true]
      rcases hout with h | h
      · have hb := earCut_momentBounds 1 pts h hin last
        rw [hl] at hb
        obtain ⟨f1, f2, f3, f4, f5⟩ := hb
        have g2 : (0 : ℚ) ≤ ((edgeSums last pts).2.1 : ℚ) := by exact_mod_cast (by linarith)
        have g3 : ((edgeSums last pts).2.1 : ℚ) ≤ 1917 * ((edgeSums last pts).1 : ℚ) := by
          exact_mod_cast (by linarith)
        have g4 : (0 : ℚ) ≤ ((edgeSums last pts).2.2 : ℚ) := by exact_mod_cast (by linarith)
        have g5 : ((edgeSums last pts).2.2 : ℚ) ≤ 1437 * ((edgeSums last pts).1 : ℚ) := by
          exact_mod_cast (by linarith)
        refine ⟨by linarith, by linarith, by linarith, by linarith, by linarith⟩
      · have hb := earCut_momentBounds (-1) pts h hin last
        rw [hl] at hb
        obtain ⟨f1, _⟩ := hb
        exfalso
        linarith
    · by_cases hneg : (edgeSums last pts).1 < 0
      · have hnegq : ((edgeSums last pts).1 : ℚ) < 0 := by exact_mod_cast hneg
        simp only [hpos, if_false, hneg, if_true]
        rcases hout with h | h
        · have hb := earCut_momentBounds 1 pts h hin last
          rw [hl] at hb
          obtain ⟨f1, _⟩ := hb
          exfalso
          linarith
        · have hb := earCut_momentBounds (-1) pts h hin last
          rw [hl] at hb
          obtain ⟨f1, f2, f3, f4, f5⟩ := hb
          have g2 : ((edgeSums last pts).2.1 : ℚ) ≤ 0 := by exact_mod_cast (by linarith)
          have g3 : 1917 * ((edgeSums last pts).1 : ℚ) ≤ ((edgeSums last pts).2.1 : ℚ) := by
            exact_mod_cast (by linarith)
          have g4 : ((edgeSums last pts).2.2 : ℚ) ≤ 0 := by exact_mod_cast (by linarith)
          have g5 : 1437 * ((edgeSums last pts).1 : ℚ) ≤ ((edgeSums last pts).2.2 : ℚ) := by
            exact_mod_cast (by linarith)
          refine ⟨by linarith, by linarith, by linarith, by linarith, by linarith⟩
      · simp [hpos, hneg]

theorem truncToInt_bounds (q : ℚ) (n : Int) (h0 : 0 ≤ q) (h1 : q ≤ n) :
    0 ≤ truncToInt q ∧ truncToInt q ≤ n := by
  unfold truncToInt
  simp only [h0, if_true]
  exact ⟨Int.floor_nonneg.mpr h0, Int.floor_le_iff.mpr (by linarith)⟩

/-- The centroid of moments with non-negative first moments bounded by the area
times the largest coordinates is a position of the frame. -/
theorem centroid_inFrame (m : Moments) (harea : m.m00 > 0) (hx0 : 0 ≤ m.m10)
    (hx1 : m.m10 ≤ 639 * m.m00) (hy0 : 0 ≤ m.m01) (hy1 : m.m01 ≤ 479 * m.m00) :
    InFrame (centroid m).x_pos (centroid m).y_pos := by
  have qx0 : 0 ≤ m.m10 / m.m00 := div_nonneg hx0 (le_of_lt harea)
  have qx1 : m.m10 / m.m00 ≤ ((639 : Int) : ℚ) := by
    rw [div_le_iff₀ harea]
    push_cast
    linarith
  have qy0 : 0 ≤ m.m01 / m.m00 := div_nonneg hy0 (le_of_lt harea)
  have qy1 : m.m01 / m.m00 ≤ ((479 : Int) : ℚ) := by
    rw [div_le_iff₀ harea]
    push_cast
    linarith
  obtain ⟨x0, x1⟩ := truncToInt_bounds _ _ qx0 qx1
  obtain ⟨y0, y1⟩ := truncToInt_bounds _ _ qy0 qy1
  unfold InFrame centroid FRAME_WIDTH FRAME_HEIGHT
  dsimp only
  refine ⟨x0, by omega, y0, by omega⟩

/-! ## Lemmas on what is drawn -/

/-- `trackFilteredObject` never reports a division by zero. -/
theorem trackFilteredObject_ne_divisionByZero (moments : List Point → Moments)
    (contours : List (List Point)) (hierarchy : List Vec4i) (cameraFeed : List Draw) :
    trackFilteredObject moments contours hierarchy cameraFeed ≠ .error .divisionByZero := by
  unfold trackFilteredObject
  by_cases hpos : hierarchy.length > 0
  · by_cases hlt : (hierarchy.length : Int) < MAX_NUM_OBJECTS
    · simp only [hpos, if_true, hlt]
      cases hs : scanContours moments contours hierarchy hierarchy.length 0 initialLocals with
      | error f =>
        intro h
        simp only [Except.error.injEq] at h
        subst h
        exact scanContours_ne_divisionByZero moments contours hierarchy _ _ _ hs
      | ok st =>
        by_cases hf : st.objectFound = true <;> simp [hf]
    · simp [hpos, hlt]
  · simp [hpos]

/-- A drawn ball sits at the centroid of a visited contour whose area is above
the cutoff (the last visited one). -/
theorem ballDrawn_is_centroid (moments : List Point → Moments)
    (contours : List (List Point)) (hierarchy : List Vec4i) (cameraFeed : List Draw)
    (out : Outcome) (b : Ball)
    (hout : trackFilteredObject moments contours hierarchy cameraFeed = .ok out)
    (hdrawn : BallDrawnAt cameraFeed out.cameraFeed b) :
    ∃ l i, visited hierarchy = some l ∧ i ∈ l ∧ i < contours.length ∧
      (momentsAt moments contours i).m00 > (MIN_OBJECT_AREA : ℚ) ∧
      b = centroid (momentsAt moments contours i) := by
  by_cases hpos : hierarchy.length > 0
  · by_cases hlt : (hierarchy.length : Int) < MAX_NUM_OBJECTS
    · have hlt2 : hierarchy.length < 50 := by
        unfold MAX_NUM_OBJECTS at hlt
        omega
      obtain ⟨l, hchain, hl⟩ :=
        visited_of_trackFilteredObject moments contours hierarchy cameraFeed out hpos hlt2 hout
      rw [trackFilteredObject_of_visited moments contours hierarchy cameraFeed l hpos hlt2
        hchain hl] at hout
      simp only [Except.ok.injEq] at hout
      subst hout
      have hne : l ≠ [] := siblingChain_ne_nil hierarchy _ 0 l (le_refl _) hchain
      obtain ⟨last, hlast⟩ : ∃ last, l.getLast? = some last := by
        cases hg : l.getLast? with
        | none => exact absurd (List.getLast?_eq_none_iff.mp hg) hne
        | some a => exact ⟨a, rfl⟩
      obtain ⟨hfound, hball⟩ := afterVisits_last moments contours l last initialLocals hlast
      have hmem : last ∈ l := List.mem_of_getLast?_eq_some hlast
      unfold BallDrawnAt at hdrawn
      by_cases hf : (afterVisits moments contours l initialLocals).objectFound = true
      · simp only [hf, if_true] at hdrawn
        have hb := drawBall_injective _ _ _ hdrawn
        rw [hf] at hfound
        have harea : (momentsAt moments contours last).m00 > (MIN_OBJECT_AREA : ℚ) := by
          simpa using hfound.symm
        have hb2 := hball harea
        rw [hb] at hb2
        exact ⟨l, last, hchain, hmem, hl last hmem, harea, hb2⟩
      · simp only [hf] at hdrawn
        exact absurd hdrawn (frame_ne_drawBall b cameraFeed)
    · unfold trackFilteredObject at hout
      simp only [hpos, if_true, hlt, if_false, Except.ok.injEq] at hout
      subst hout
      exact absurd hdrawn (warning_ne_drawBall b cameraFeed _)
  · unfold trackFilteredObject at hout
    simp only [hpos, if_false, Except.ok.injEq] at hout
    subst hout
    exact absurd hdrawn (frame_ne_drawBall b cameraFeed)

/-! ## The claims -/

/-- C9. With between 1 and 49 hierarchy entries, as many contours, and a
next-sibling chain from index 0 that ends, `trackFilteredObject` returns and
what it draws is decided by the last visited contour alone: the ball is drawn
iff that contour has area above `MIN_OBJECT_AREA` = 1600 (strictly), at that
contour's centroid, and the frame is left as it was otherwise; any other
moment function that agrees on that contour gives the same frame.  `refArea`
still holds its initial 0, and starting the loop from any other value of
`refArea` changes nothing but that field. -/
theorem last_visited_decides (moments : List Point → Moments) (contours : List (List Point))
    (hierarchy : List Vec4i) (cameraFeed : List Draw) (l : List Nat)
    (hsize : 1 ≤ hierarchy.length ∧ hierarchy.length ≤ 49)
    (hlen : contours.length = hierarchy.length)
    (hchain : visited hierarchy = some l) :
    ∃ last out,
      l.getLast? = some last ∧ last < contours.length ∧
      trackFilteredObject moments contours hierarchy cameraFeed = .ok out ∧
      out.cameraFeed =
        (if (momentsAt moments contours last).m00 > 1600 then
          drawBall (centroid (momentsAt moments contours last)) cameraFeed
        else cameraFeed) ∧
      ((∃ b, BallDrawnAt cameraFeed out.cameraFeed b)
        ↔ (momentsAt moments contours last).m00 > 1600) ∧
      (∀ moments2 : List Point → Moments,
        momentsAt moments2 contours last = momentsAt moments contours last →
        ∃ out2, trackFilteredObject moments2 contours hierarchy cameraFeed = .ok out2 ∧
          out2.cameraFeed = out.cameraFeed) ∧
      out.locals.refArea = 0 ∧
      ∀ r : ℚ,
        scanContours moments contours hierarchy hierarchy.length 0
            { initialLocals with refArea := r }
          = .ok { out.locals with refArea := r } := by
  have hl : ∀ i ∈ l, i < contours.length := by
    intro i hi
    rw [hlen]
    exact siblingChain_lt_length hierarchy _ _ _ hchain i hi
  have hne : l ≠ [] := siblingChain_ne_nil hierarchy _ 0 l (le_refl _) hchain
  obtain ⟨last, hlast⟩ : ∃ last, l.getLast? = some last := by
    cases hg : l.getLast? with
    | none => exact absurd (List.getLast?_eq_none_iff.mp hg) hne
    | some a => exact ⟨a, rfl⟩
  have htrack := fun m => trackFilteredObject_of_last m contours hierarchy cameraFeed l last
    (by omega) (by omega) hchain hl hlast
  refine ⟨last, _, hlast, hl last (List.mem_of_getLast?_eq_some hlast), htrack moments, rfl,
    ?_, ?_, ?_, ?_⟩
  · dsimp only
    by_cases ha : (momentsAt moments contours last).m00 > 1600
    · simp only [ha, if_true, iff_true]
      exact ⟨_, rfl⟩
    · simp only [ha, if_false, iff_false]
      rintro ⟨b, hb⟩
      exact frame_ne_drawBall b cameraFeed hb
  · intro moments2 hagree
    refine ⟨_, htrack moments2, ?_⟩
    dsimp only
    rw [hagree]
  · show (afterVisits moments contours l initialLocals).refArea = 0
    rw [afterVisits_refArea]
    rfl
  · intro r
    rw [scanContours_with_refArea,
      scanContours_of_chain moments contours hierarchy _ _ _ l hchain hl]
    rfl

/-- C9 on a frame with two squares: the second, smaller one is the last one
visited and the ball is drawn at its centre. -/
theorem last_visited_decides_witness :
    (1 ≤ twoEntries.length ∧ twoEntries.length ≤ 49) ∧
    [largeSquare, smallSquare].length = twoEntries.length ∧
    visited twoEntries = some [0, 1] ∧
    ∃ out,
      trackFilteredObject contourMoments [largeSquare, smallSquare] twoEntries [] = .ok out ∧
      out.cameraFeed = drawBall ⟨300, 200⟩ [] ∧
      out.locals.refArea = 0 := by
  have hsize : 1 ≤ twoEntries.length ∧ twoEntries.length ≤ 49 := by decide
  have hlen : [largeSquare, smallSquare].length = twoEntries.length := by decide
  have hchain : visited twoEntries = some [0, 1] := by decide
  refine ⟨hsize, hlen, hchain, ?_⟩
  obtain ⟨last, out, hlast, _, hout, hfeed, _, _, href, _⟩ :=
    last_visited_decides contourMoments [largeSquare, smallSquare] twoEntries [] [0, 1]
      hsize hlen hchain
  have hl : last = 1 := by simpa using hlast.symm
  subst hl
  refine ⟨out, hout, ?_, href⟩
  rw [hfeed]
  norm_num [momentsAt, smallSquare, contourMoments, edgeSums, centroid, truncToInt]

/-- C2. For every input, `trackFilteredObject` never reports a division by
zero, the loop body returns on every contour, and whenever a ball is drawn its
position is `(m10/m00, m01/m00)`, truncated to integers, of a visited contour
whose `m00` is strictly greater than `MIN_OBJECT_AREA` = 1600. -/
theorem drawn_ball_is_visited_centroid (moments : List Point → Moments)
    (contours : List (List Point)) (hierarchy : List Vec4i) (cameraFeed : List Draw) :
    trackFilteredObject moments contours hierarchy cameraFeed ≠ .error .divisionByZero ∧
    (∀ (m : Moments) (st : Locals), ∃ st1, loopBody m st = .ok st1) ∧
    ∀ (out : Outcome) (b : Ball),
      trackFilteredObject moments contours hierarchy cameraFeed = .ok out →
      BallDrawnAt cameraFeed out.cameraFeed b →
      ∃ l i, visited hierarchy = some l ∧ i ∈ l ∧ i < contours.length ∧
        (momentsAt moments contours i).m00 > 1600 ∧
        (MIN_OBJECT_AREA : ℚ) = 1600 ∧
        b.x_pos = truncToInt ((momentsAt moments contours i).m10
                    / (momentsAt moments contours i).m00) ∧
        b.y_pos = truncToInt ((momentsAt moments contours i).m01
                    / (momentsAt moments contours i).m00) := by
  have hmin : (MIN_OBJECT_AREA : ℚ) = 1600 := by norm_num [MIN_OBJECT_AREA]
  refine ⟨trackFilteredObject_ne_divisionByZero moments contours hierarchy cameraFeed,
    fun m st => ⟨_, loopBody_eq m st⟩, ?_⟩
  intro out b hout hdrawn
  obtain ⟨l, i, hchain, hmem, hlt, harea, hb⟩ :=
    ballDrawn_is_centroid moments contours hierarchy cameraFeed out b hout hdrawn
  rw [hmin] at harea
  refine ⟨l, i, hchain, hmem, hlt, harea, hmin, ?_, ?_⟩
  · rw [hb]; rfl
  · rw [hb]; rfl

/-- C2 on a frame with one square of side 50: the ball drawn at (300, 200) is
the centroid of contour 0, whose area 2500 is above 1600. -/
theorem drawn_ball_is_visited_centroid_witness :
    ∃ out,
      trackFilteredObject contourMoments [smallSquare] loneEntry [] = .ok out ∧
      BallDrawnAt [] out.cameraFeed ⟨300, 200⟩ ∧
      ∃ l i, visited loneEntry = some l ∧ i ∈ l ∧ i < [smallSquare].length ∧
        (momentsAt contourMoments [smallSquare] i).m00 > 1600 ∧
        (300 : Int) = truncToInt ((momentsAt contourMoments [smallSquare] i).m10
                      / (momentsAt contourMoments [smallSquare] i).m00) := by
  have hout : trackFilteredObject contourMoments [smallSquare] loneEntry []
      = .ok ⟨{ initialLocals with ball := ⟨300, 200⟩, objectFound := true },
          drawBall ⟨300, 200⟩ []⟩ := by
    norm_num [trackFilteredObject, loneEntry, scanContours, loopBody, MAX_NUM_OBJECTS,
      MIN_OBJECT_AREA, initialLocals, contourMoments, smallSquare, edgeSums, divide,
      Ball.set_x_pos, Ball.set_y_pos, truncToInt]
  refine ⟨_, hout, rfl, ?_⟩
  obtain ⟨l, i, h1, h2, h3, h4, _, h6, _⟩ :=
    (drawn_ball_is_visited_centroid contourMoments [smallSquare] loneEntry []).2.2 _ ⟨300, 200⟩
      hout rfl
  exact ⟨l, i, h1, h2, h3, h4, h6⟩

/-- C7, refuted as stated: no input makes `trackFilteredObject` produce a robot
record.  There is no frame on which it returns with a non-empty `allRobots`,
with the text "Robot" among what it has drawn on the camera feed, or with the
drawing of a `drawRobot` call anywhere in what it has drawn. -/
theorem no_input_yields_robot :
    ¬ ∃ (moments : List Point → Moments) (contours : List (List Point))
        (hierarchy : List Vec4i) (cameraFeed : List Draw) (out : Outcome),
      trackFilteredObject moments contours hierarchy cameraFeed = .ok out ∧
      (out.locals.allRobots ≠ [] ∨ RobotDrawn cameraFeed out.cameraFeed ∨
        ∃ (pre post drawn : List Draw) (r : Robot),
          drawRobot r (cameraFeed ++ pre) = .ok drawn ∧ out.cameraFeed = drawn ++ post) := by
  rintro ⟨moments, contours, hierarchy, cameraFeed, out, h, hrobot⟩
  obtain ⟨hnil, heff⟩ := trackFilteredObject_effect moments contours hierarchy cameraFeed out h
  have hno := not_robotDrawn_of_effect cameraFeed out.cameraFeed heff
  rcases hrobot with hne | hdrawn | ⟨pre, post, drawn, r, hcall, hfeed⟩
  · exact hne hnil
  · exact hno hdrawn
  · rw [hfeed] at hno
    exact hno (robotDrawn_of_drawRobot cameraFeed pre post drawn r hcall)

/-- C7, amended. Whenever `trackFilteredObject` returns, its robot list
`allRobots` is empty, so the number of robots it reports is zero, hence at most
four; and what it has drawn on the camera feed is nothing, the noise warning
alone, or one ball alone: the text "Robot" is not among it, and no call of
`drawRobot`, made at any point, has its drawing in it. -/
theorem no_robot_reported (moments : List Point → Moments) (contours : List (List Point))
    (hierarchy : List Vec4i) (cameraFeed : List Draw) (out : Outcome)
    (h : trackFilteredObject moments contours hierarchy cameraFeed = .ok out) :
    out.locals.allRobots = [] ∧ out.locals.allRobots.length = 0 ∧
    out.locals.allRobots.length ≤ 4 ∧
    (out.cameraFeed = cameraFeed ∨ NoiseWarned cameraFeed out.cameraFeed ∨
      ∃ b, BallDrawnAt cameraFeed out.cameraFeed b) ∧
    ¬ RobotDrawn cameraFeed out.cameraFeed ∧
    ∀ (pre post drawn : List Draw) (r : Robot),
      drawRobot r (cameraFeed ++ pre) = .ok drawn → out.cameraFeed ≠ drawn ++ post := by
  obtain ⟨hnil, heff⟩ := trackFilteredObject_effect moments contours hierarchy cameraFeed out h
  have hno := not_robotDrawn_of_effect cameraFeed out.cameraFeed heff
  refine ⟨hnil, by simp [hnil], by simp [hnil], heff, hno, ?_⟩
  intro pre post drawn r hcall hfeed
  rw [hfeed] at hno
  exact hno (robotDrawn_of_drawRobot cameraFeed pre post drawn r hcall)

/-- C7 amended, on a frame with two squares: the function returns, what it has
drawn is one ball, and it reports no robot. -/
theorem no_robot_reported_witness :
    ∃ out,
      trackFilteredObject contourMoments [largeSquare, smallSquare] twoEntries [] = .ok out ∧
      out.cameraFeed = drawBall ⟨300, 200⟩ [] ∧
      out.locals.allRobots = [] ∧ out.locals.allRobots.length ≤ 4 ∧
      ¬ RobotDrawn [] out.cameraFeed := by
  have hout : trackFilteredObject contourMoments [largeSquare, smallSquare] twoEntries []
      = .ok ⟨{ initialLocals with ball := ⟨300, 200⟩, objectFound := true },
          drawBall ⟨300, 200⟩ []⟩ := by
    norm_num [trackFilteredObject, twoEntries, scanContours, loopBody, MAX_NUM_OBJECTS,
      MIN_OBJECT_AREA, initialLocals, contourMoments, largeSquare, smallSquare, edgeSums,
      divide, Ball.set_x_pos, Ball.set_y_pos, truncToInt]
  obtain ⟨h1, _, h3, _, h5, _⟩ :=
    no_robot_reported contourMoments [largeSquare, smallSquare] twoEntries [] _ hout
  exact ⟨_, hout, rfl, h1, h3, h5⟩

/-- C1, the code at a failing input. Two squares are visited, the larger one
(area 10000, centre (100, 100)) first and the smaller one (area 2500, centre
(300, 200)) last; both are above the cutoff. The reference definition reports
the centre of the larger one, the code draws the ball at the centre of the
smaller one. -/
theorem largest_area_not_selected :
    visited twoEntries = some [0, 1] ∧
    (contourMoments largeSquare).m00 = 10000 ∧
    (contourMoments smallSquare).m00 = 2500 ∧
    referenceBall contourMoments [largeSquare, smallSquare] twoEntries = some ⟨100, 100⟩ ∧
    ∃ out,
      trackFilteredObject contourMoments [largeSquare, smallSquare] twoEntries [] = .ok out ∧
      BallDrawnAt [] out.cameraFeed ⟨300, 200⟩ := by
  have hv : visited twoEntries = some [0, 1] := by decide
  refine ⟨hv, ?_, ?_, ?_, ?_⟩
  · norm_num [contourMoments, largeSquare, edgeSums]
  · norm_num [contourMoments, smallSquare, edgeSums]
  · rw [referenceBall, hv]
    norm_num [largestQualifying, momentsAt, MIN_OBJECT_AREA, contourMoments, largeSquare,
      smallSquare, edgeSums, centroid, truncToInt]
  · refine ⟨⟨{ initialLocals with ball := ⟨300, 200⟩, objectFound := true },
      drawBall ⟨300, 200⟩ []⟩, ?_, rfl⟩
    norm_num [trackFilteredObject, twoEntries, scanContours, loopBody, MAX_NUM_OBJECTS,
      MIN_OBJECT_AREA, initialLocals, contourMoments, largeSquare, smallSquare, edgeSums,
      divide, Ball.set_x_pos, Ball.set_y_pos, truncToInt]

/-- C4, the code at a failing input. With exactly 50 hierarchy entries, a
number that is not greater than `MAX_NUM_OBJECTS`, the warning is drawn and no
contour is scanned, although the sibling chain visits all fifty. -/
theorem fifty_objects_warned :
    fiftyEntries.length = 50 ∧
    ¬ ((fiftyEntries.length : Int) > MAX_NUM_OBJECTS) ∧
    fiftyContours.length = 50 ∧
    visited fiftyEntries = some (List.range 50) ∧
    ∃ out,
      trackFilteredObject contourMoments fiftyContours fiftyEntries [] = .ok out ∧
      NoiseWarned [] out.cameraFeed ∧
      out.locals = initialLocals := by
  refine ⟨by decide, by decide, by decide, by decide, ?_⟩
  refine ⟨⟨initialLocals, [Draw.putText "TOO MUCH NOISE! ADJUST FILTER" 0 50]⟩, ?_, rfl, rfl⟩
  have hlen : fiftyEntries.length = 50 := by decide
  simp [trackFilteredObject, hlen, MAX_NUM_OBJECTS]

/-- C5, the code at a failing input. The outline of a blob that fills the
frame has area 303849, which is at least `MAX_OBJECT_AREA` = 204800, and the
ball is drawn at its centroid. -/
theorem whole_frame_blob_reported :
    MAX_OBJECT_AREA = 204800 ∧
    (contourMoments wholeFrame).m00 = 303849 ∧
    (contourMoments wholeFrame).m00 ≥ (MAX_OBJECT_AREA : ℚ) ∧
    ∃ out,
      trackFilteredObject contourMoments [wholeFrame] loneEntry [] = .ok out ∧
      BallDrawnAt [] out.cameraFeed ⟨319, 239⟩ := by
  have hmax : MAX_OBJECT_AREA = 204800 := by
    norm_num [MAX_OBJECT_AREA, FRAME_HEIGHT, FRAME_WIDTH, truncToInt]
  have harea : (contourMoments wholeFrame).m00 = 303849 := by
    norm_num [contourMoments, wholeFrame, edgeSums]
  refine ⟨hmax, harea, ?_, ?_⟩
  · rw [harea, hmax]
    norm_num
  · refine ⟨⟨{ initialLocals with ball := ⟨319, 239⟩, objectFound := true },
      drawBall ⟨319, 239⟩ []⟩, ?_, rfl⟩
    norm_num [trackFilteredObject, loneEntry, scanContours, loopBody, MAX_NUM_OBJECTS,
      MIN_OBJECT_AREA, initialLocals, contourMoments, wholeFrame, edgeSums,
      divide, Ball.set_x_pos, Ball.set_y_pos, truncToInt, Int.floor_eq_iff]

/-- C6, the code at a failing input. A square of area 900, which is not less
than 20 * 20 = 400, is rejected: the body clears `objectFound` and no ball is
drawn. The cutoff of the code is `MIN_OBJECT_AREA` = 40 * 40 = 1600. -/
theorem area_900_rejected :
    (contourMoments thirtySquare).m00 = 900 ∧
    ¬ ((contourMoments thirtySquare).m00 < 20 * 20) ∧
    MIN_OBJECT_AREA = 1600 ∧
    loopBody (contourMoments thirtySquare) { initialLocals with objectFound := true }
      = .ok initialLocals ∧
    trackFilteredObject contourMoments [thirtySquare] loneEntry []
      = .ok ⟨initialLocals, []⟩ := by
  have harea : (contourMoments thirtySquare).m00 = 900 := by
    norm_num [contourMoments, thirtySquare, edgeSums]
  refine ⟨harea, ?_, by decide, ?_, ?_⟩
  · rw [harea]
    norm_num
  · norm_num [loopBody, harea, MIN_OBJECT_AREA, initialLocals]
  · norm_num [trackFilteredObject, loneEntry, scanContours, loopBody, MAX_NUM_OBJECTS,
      MIN_OBJECT_AREA, initialLocals, harea]

/-- C8, the code at a failing input. For a robot of team 1 and angle 2 the two
labels drawn are "eam " and "gle: ", the literals advanced by 1 and 2
characters, and not "Team 1" and "angle: 2"; and for no team identifier at all
is the team label "Team " followed by its decimal representation. -/
theorem drawRobot_labels_are_suffixes :
    drawRobot ⟨10, 20, 1, 2⟩ []
      = .ok [Draw.circle 10 20 10, Draw.putText "(10,20)" 10 40,
          Draw.putText "Robot" 30 55, Draw.putText "eam " 30 80,
          Draw.putText "gle: " 30 95] ∧
    "Team " ++ intToString 1 = "Team 1" ∧
    "angle: " ++ intToString 2 = "angle: 2" ∧
    ∀ t : Int, literalPlusInt "Team " t ≠ .ok ("Team " ++ intToString t) := by
  refine ⟨by rfl, by rfl, by rfl, ?_⟩
  intro t
  unfold literalPlusInt
  have h5 : ("Team ".length : Int) = 5 := by decide
  rw [h5]
  by_cases h : 0 ≤ t ∧ t ≤ 5
  · obtain ⟨h0, h1⟩ := h
    interval_cases t <;> decide
  · simp [h]

end ComputerVision
